import Mathlib

/-!
Verification of the static-file-server core of this repository.

The repository contains two near-identical server variants:
`src/server.js` (plain `http` server) and an express-based variant
(`src/unnamed/part_001`, an `app.js` module started by
`src/unnamed/part_000`).  Both define the same four core functions
(`safeResolveFromPublic`, `getContentType`, `computeEtag`,
`selectCompression`) and the same request pipeline.

This file gives a shallow embedding of that core:

* Node's `path.posix` routines (`normalize`, `join`, `extname`) are
  embedded as executable functions on `List Char` / `String`,
  following the Node implementation (segment-stack normalisation,
  preserved trailing separator, `extname` state-machine behaviour).
* JS number-to-string interpolation is embedded as `natToDec`
  (decimal printing); `Date.prototype.toUTCString` as `toUTCString`
  (proleptic-Gregorian civil-from-days calendar arithmetic);
  `crypto.createHash("sha1")` as an executable SHA-1 over byte lists.
* The filesystem is a function from path strings to nodes
  (`Fs`), `fs.promises.stat` / `fs.promises.readFile` become
  `statFs` / `readFileFs`; `stat.mtimeMs` is modelled as a natural
  number of milliseconds (the double-precision fractional part is
  dropped, which no claim depends on; the numeric metadata fields are
  bounded doubles in JS, and the unbounded `Nat` model is conservative
  for the universally quantified theorems proved here).
* The module-level constant `publicDir = path.join(__dirname,
  "public")` depends on the runtime install location; it is modelled
  by the representative absolute path `"/srv/app/public"` (the same
  representative for both variants, so "the same path relative to
  the root" in the refinement claim becomes plain path equality).
* The request handler of `src/server.js` (lines 75-155, i.e. the
  static pipeline; the `/api/health` JSON route is out-of-scope
  plumbing per the specification) becomes `handleRequest`, a pure
  function from a filesystem and a request to a response
  descriptor.  Streaming bodies are descriptors
  (`BodySource.fileStream path compression`); the zlib compressor
  objects carried next to the `enc` token in `selectCompression`'s
  JS return value are likewise abstracted to the token.
-/

/-! ## Decimal printing (JS template-literal interpolation of numbers) -/

/-- Decimal digit character for `d < 10`. -/
def decDigitChar (d : Nat) : Char :=
  match d with
  | 0 => '0' | 1 => '1' | 2 => '2' | 3 => '3' | 4 => '4'
  | 5 => '5' | 6 => '6' | 7 => '7' | 8 => '8' | _ => '9'

/-- Big-endian decimal digits of `n`; empty for `0`. -/
def decDigits (n : Nat) : List Char :=
  if h : n = 0 then []
  else decDigits (n / 10) ++ [decDigitChar (n % 10)]
decreasing_by exact Nat.div_lt_self (Nat.pos_of_ne_zero h) (by omega)

/-- Model of JS `${n}` for a non-negative integer: decimal notation. -/
def natToDec (n : Nat) : String :=
  if n = 0 then "0" else ⟨decDigits n⟩

/-- Inverse of decimal printing, used to prove injectivity. -/
def decVal (l : List Char) : Nat :=
  l.foldl (fun a c => a * 10 + (c.toNat - 48)) 0

theorem decVal_append_digit (l : List Char) (c : Char) :
    decVal (l ++ [c]) = decVal l * 10 + (c.toNat - 48) := by
  simp [decVal, List.foldl_append]

theorem decDigitChar_toNat (d : Nat) (h : d < 10) :
    (decDigitChar d).toNat = 48 + d := by
  interval_cases d <;> rfl

theorem decVal_decDigits (n : Nat) : decVal (decDigits n) = n := by
  induction n using Nat.strong_induction_on with
  | _ n ih =>
    by_cases h : n = 0
    · subst h; rw [decDigits]; rfl
    · rw [decDigits]
      simp only [h, dite_false]
      rw [decVal_append_digit, ih (n / 10) (Nat.div_lt_self (Nat.pos_of_ne_zero h) (by omega)),
        decDigitChar_toNat (n % 10) (Nat.mod_lt _ (by omega))]
      omega

theorem decDigits_ne_nil (n : Nat) (h : n ≠ 0) : decDigits n ≠ [] := by
  rw [decDigits]
  simp only [h, dite_false]
  simp

theorem natToDec_inj (m n : Nat) (h : natToDec m = natToDec n) : m = n := by
  unfold natToDec at h
  by_cases hm : m = 0 <;> by_cases hn : n = 0 <;> simp [hm, hn] at h ⊢
  · -- "0" = ⟨decDigits n⟩ with n ≠ 0
    exfalso
    have hd : ("0" : String).data = decDigits n := congrArg String.data h
    have := congrArg decVal hd
    rw [decVal_decDigits] at this
    simp [decVal] at this
    exact hn this.symm
  · exfalso
    have hd : decDigits m = ("0" : String).data := congrArg String.data h
    have := congrArg decVal hd
    rw [decVal_decDigits] at this
    simp [decVal] at this
    exact hm this
  · have : decDigits m = decDigits n := congrArg String.data h
    have := congrArg decVal this
    rwa [decVal_decDigits, decVal_decDigits] at this

/-! ## Node `path.posix` primitives, embedded on `List Char`

`path.normalize` (posix) splits on `'/'`, drops empty and `"."`
segments, resolves `".."` against a segment stack (keeping leading
`".."`s only for relative paths), and re-renders, preserving a
leading and a trailing separator.  `path.join(a, b)` concatenates
the non-empty arguments with `'/'` and normalises.  On POSIX the
backslash is an ordinary path character. -/

/-- Split a character list on a separator character.  Always returns at
least one (possibly empty) segment, like JS `String.prototype.split`. -/
def splitOnChar (c : Char) : List Char → List (List Char)
  | [] => [[]]
  | x :: xs =>
    match splitOnChar c xs with
    | [] => [[]]
    | s :: ss => if x = c then [] :: s :: ss else (x :: s) :: ss

/-- Render segments back, interleaving the separator (inverse of
`splitOnChar`). -/
def joinSegsC (c : Char) : List (List Char) → List Char
  | [] => []
  | [s] => s
  | s :: ss => s ++ c :: joinSegsC c ss

/-- One step of Node's `normalizeString` segment-stack loop.  The
accumulator holds the emitted segments in reverse order. -/
def normStep (allowAboveRoot : Bool) (acc : List (List Char)) (seg : List Char) :
    List (List Char) :=
  if seg = [] ∨ seg = ['.'] then acc
  else if seg = ['.', '.'] then
    match acc with
    | [] => if allowAboveRoot then [seg] else []
    | last :: rest =>
      if last = ['.', '.'] then (if allowAboveRoot then seg :: last :: rest else last :: rest)
      else rest
  else seg :: acc

/-- The resolved segment list of Node's `normalizeString`. -/
def normSegs (allowAboveRoot : Bool) (segs : List (List Char)) : List (List Char) :=
  (segs.foldl (normStep allowAboveRoot) []).reverse

/-- Whether a character list starts with `'/'` (Node `isAbsolute` test
inside `normalize`). -/
def isAbsL (l : List Char) : Bool :=
  match l with
  | '/' :: _ => true
  | _ => false

/-- Whether a non-empty character list ends with `'/'` (Node's
`trailingSeparator` test). -/
def hasTrailingSlash (l : List Char) : Bool :=
  l.getLast? = some '/'

/-- Node `path.posix.normalize` on character lists. -/
def normalizeChars (l : List Char) : List Char :=
  if l = [] then ['.']
  else
    let isAbs := isAbsL l
    let trailing := hasTrailingSlash l
    let core := joinSegsC '/' (normSegs (!isAbs) (splitOnChar '/' l))
    if core = [] then
      if isAbs then ['/'] else if trailing then ['.', '/'] else ['.']
    else
      let core2 := if trailing then core ++ ['/'] else core
      if isAbs then '/' :: core2 else core2

/-- Node `path.posix.normalize`. -/
def pathNormalize (s : String) : String := ⟨normalizeChars s.data⟩

/-- Node `path.posix.join` restricted to two arguments, as used by the
source (`path.join(publicDir, p)`, `path.join(filePath, 'index.html')`):
empty arguments are skipped, the rest are joined with `'/'` and the
result is normalised; with no non-empty argument the result is `"."`. -/
def pathJoin (a b : String) : String :=
  if a = "" then (if b = "" then "." else pathNormalize b)
  else if b = "" then pathNormalize a
  else pathNormalize (a ++ "/" ++ b)

/-- Node `path.posix.extname`: the extension of the basename, from its
last dot; empty when the basename has no dot, when its only dot is the
leading character, or when the basename is exactly `".."` (this matches
the `preDotState` state machine of Node's implementation). -/
def extname (p : String) : String :=
  let trimmed := p.data.reverse.dropWhile (fun c => c = '/')
  let rb := trimmed.takeWhile (fun c => c ≠ '/')
  match rb.findIdx? (fun c => c = '.') with
  | none => ""
  | some j =>
    if j + 1 = rb.length then ""
    else if rb = ['.', '.'] then ""
    else ⟨(rb.take (j + 1)).reverse⟩

/-- JS `String.prototype.startsWith`. -/
def strStartsWith (s pre : String) : Bool :=
  pre.data.isPrefixOf s.data

/-- JS `String.prototype.includes`: substring containment. -/
def containsSeq (pat : List Char) : List Char → Bool
  | [] => pat.isEmpty
  | x :: xs => pat.isPrefixOf (x :: xs) || containsSeq pat xs

/-- JS `haystack.includes(needle)` on strings. -/
def strIncludes (s pat : String) : Bool :=
  containsSeq pat.data s.data

/-- JS `String.prototype.toLowerCase`, for the ASCII range used by the
extension table. -/
def toLowerStr (s : String) : String := ⟨s.data.map Char.toLower⟩

/-! ## SHA-1 (`crypto.createHash("sha1")` over the ASCII bytes of the
ETag base string), executable on `Nat` with explicit `% 2^32` wrapping. -/

/-- Truncate to a 32-bit word. -/
def w32 (n : Nat) : Nat := n % 4294967296

/-- Left-rotation of a 32-bit word by `b` bits (for `n < 2^32`,
`b ≤ 32`). -/
def rotl32 (b n : Nat) : Nat :=
  (n % 2 ^ (32 - b)) * 2 ^ b + n / 2 ^ (32 - b)

/-- UTF-8 bytes of an ASCII string (`Buffer.from(s)`); the hashed
strings here are digits and dashes, all below 128, where UTF-8 equals
the code points. -/
def strBytes (s : String) : List Nat := s.data.map Char.toNat

/-- `k`-byte big-endian encoding of `n`. -/
def toBytesBE (k : Nat) (n : Nat) : List Nat :=
  (List.range k).map (fun i => n / 2 ^ (8 * (k - 1 - i)) % 256)

/-- SHA-1 padding: `0x80`, zeros to 56 mod 64, then the 64-bit
big-endian bit length. -/
def sha1pad (m : List Nat) : List Nat :=
  m ++ [128] ++ List.replicate ((55 + 64 - m.length % 64) % 64) 0 ++ toBytesBE 8 (8 * m.length)

/-- Split a byte list into 64-byte chunks. -/
def chunks64 (l : List Nat) : List (List Nat) :=
  match l with
  | [] => []
  | x :: xs => (x :: xs).take 64 :: chunks64 ((x :: xs).drop 64)
termination_by l.length
decreasing_by simp; omega

/-- Pack four big-endian bytes into 32-bit words. -/
def bytesToWords : List Nat → List Nat
  | a :: b :: c :: d :: rest => (((a * 256 + b) * 256 + c) * 256 + d) :: bytesToWords rest
  | _ => []

/-- Extend the 16-word schedule; `w` is kept reversed (most recent
word first), so `w[t-3]`, `w[t-8]`, `w[t-14]`, `w[t-16]` are at
reversed indices 2, 7, 13, 15. -/
def extendW (w : List Nat) : Nat → List Nat
  | 0 => w
  | k + 1 =>
    extendW (rotl32 1 (w32 ((w.getD 2 0) ^^^ (w.getD 7 0) ^^^ (w.getD 13 0) ^^^ (w.getD 15 0))) :: w) k

/-- SHA-1 chaining state. -/
structure Sha1State where
  h0 : Nat
  h1 : Nat
  h2 : Nat
  h3 : Nat
  h4 : Nat
deriving DecidableEq

/-- FIPS 180 initial state. -/
def sha1Init : Sha1State :=
  ⟨0x67452301, 0xEFCDAB89, 0x98BADCFE, 0x10325476, 0xC3D2E1F0⟩

/-- Round function `f_t`. -/
def sha1F (t b c d : Nat) : Nat :=
  if t < 20 then (b &&& c) ||| ((b ^^^ 4294967295) &&& d)
  else if t < 40 then b ^^^ c ^^^ d
  else if t < 60 then (b &&& c) ||| (b &&& d) ||| (c &&& d)
  else b ^^^ c ^^^ d

/-- Round constant `K_t`. -/
def sha1K (t : Nat) : Nat :=
  if t < 20 then 0x5A827999
  else if t < 40 then 0x6ED9EBA1
  else if t < 60 then 0x8F1BBCDC
  else 0xCA62C1D6

/-- The 80 compression rounds, walking the word schedule. -/
def sha1Rounds : Nat → List Nat → Nat × Nat × Nat × Nat × Nat → Nat × Nat × Nat × Nat × Nat
  | _, [], s => s
  | t, wt :: ws, (a, b, c, d, e) =>
    sha1Rounds (t + 1) ws
      (w32 (rotl32 5 a + sha1F t b c d + e + sha1K t + wt), a, rotl32 30 b, c, d)

/-- Process one 64-byte block. -/
def processBlock (s : Sha1State) (block : List Nat) : Sha1State :=
  let w := (extendW (bytesToWords block).reverse 64).reverse
  let r := sha1Rounds 0 w (s.h0, s.h1, s.h2, s.h3, s.h4)
  ⟨w32 (s.h0 + r.1), w32 (s.h1 + r.2.1), w32 (s.h2 + r.2.2.1),
    w32 (s.h3 + r.2.2.2.1), w32 (s.h4 + r.2.2.2.2)⟩

/-- SHA-1 of a byte list. -/
def sha1 (m : List Nat) : Sha1State :=
  (chunks64 (sha1pad m)).foldl processBlock sha1Init

/-- Lower-case hex digit for `d < 16`. -/
def hexDigitChar (d : Nat) : Char :=
  match d with
  | 0 => '0' | 1 => '1' | 2 => '2' | 3 => '3' | 4 => '4'
  | 5 => '5' | 6 => '6' | 7 => '7' | 8 => '8' | 9 => '9'
  | 10 => 'a' | 11 => 'b' | 12 => 'c' | 13 => 'd' | 14 => 'e' | _ => 'f'

/-- Eight-hex-digit rendering of a 32-bit word. -/
def toHex8 (n : Nat) : String :=
  ⟨(List.range 8).map (fun i => hexDigitChar (n / 2 ^ (4 * (7 - i)) % 16))⟩

/-- `hash.digest("hex")`: 40 lower-case hex characters. -/
def sha1Hex (m : List Nat) : String :=
  let s := sha1 m
  toHex8 s.h0 ++ toHex8 s.h1 ++ toHex8 s.h2 ++ toHex8 s.h3 ++ toHex8 s.h4

/-! ## `Date.prototype.toUTCString`

`stat.mtime.toUTCString()` renders the modification time as e.g.
`"Thu, 01 Jan 1970 00:00:00 GMT"`.  Civil date from days since the
Unix epoch by the standard era-based algorithm. -/

/-- Two-digit zero-padded decimal field. -/
def two (n : Nat) : String :=
  if n < 10 then "0" ++ natToDec n else natToDec n

/-- English weekday abbreviation, `0 = Sun`. -/
def weekdayName (d : Nat) : String :=
  match d with
  | 0 => "Sun" | 1 => "Mon" | 2 => "Tue" | 3 => "Wed"
  | 4 => "Thu" | 5 => "Fri" | _ => "Sat"

/-- English month abbreviation, `1 = Jan`. -/
def monthName (m : Nat) : String :=
  match m with
  | 1 => "Jan" | 2 => "Feb" | 3 => "Mar" | 4 => "Apr"
  | 5 => "May" | 6 => "Jun" | 7 => "Jul" | 8 => "Aug"
  | 9 => "Sep" | 10 => "Oct" | 11 => "Nov" | _ => "Dec"

/-- Civil `(year, month, day)` from days since 1970-01-01. -/
def civilFromDays (z : Nat) : Nat × Nat × Nat :=
  let z' := z + 719468
  let era := z' / 146097
  let doe := z' % 146097
  let yoe := (doe - doe / 1460 + doe / 36524 - doe / 146097) / 365
  let y := yoe + era * 400
  let doy := doe - (365 * yoe + yoe / 4 - yoe / 100)
  let mp := (5 * doy + 2) / 153
  let d := doy - (153 * mp + 2) / 5 + 1
  let m := if mp < 10 then mp + 3 else mp - 9
  (if m ≤ 2 then y + 1 else y, m, d)

/-- `Date.prototype.toUTCString` for a timestamp in milliseconds. -/
def toUTCString (ms : Nat) : String :=
  let secs := ms / 1000
  let days := secs / 86400
  let sod := secs % 86400
  let c := civilFromDays days
  weekdayName ((days + 4) % 7) ++ ", " ++ two c.2.2 ++ " " ++ monthName c.2.1 ++ " " ++
    natToDec c.1 ++ " " ++ two (sod / 3600) ++ ":" ++ two (sod % 3600 / 60) ++ ":" ++
    two (sod % 60) ++ " GMT"

/-! ## The four core functions of `src/server.js` -/

/-- `publicDir = path.join(__dirname, "public")`: the root content
directory.  `__dirname` is the runtime install location; it is modelled
by a representative absolute path. -/
def publicDir : String := "/srv/app/public"

/-- `src/server.js` lines 16-29: the extension-to-MIME map. -/
def contentTypes : List (String × String) :=
  [ (".html", "text/html; charset=utf-8"),
    (".css", "text/css; charset=utf-8"),
    (".js", "text/javascript; charset=utf-8"),
    (".mjs", "text/javascript; charset=utf-8"),
    (".json", "application/json; charset=utf-8"),
    (".svg", "image/svg+xml"),
    (".png", "image/png"),
    (".jpg", "image/jpeg"),
    (".jpeg", "image/jpeg"),
    (".gif", "image/gif"),
    (".ico", "image/x-icon"),
    (".webp", "image/webp") ]

/-- `requestUrl.split("?")[0].split("#")[0]`: the URL up to the first
query or fragment delimiter. -/
def stripQueryHash (requestUrl : String) : String :=
  ⟨(requestUrl.data.takeWhile (fun c => c ≠ '?')).takeWhile (fun c => c ≠ '#')⟩

/-- `.replace(/^\\+|^\/+/, "")`: the regex removes the first match of
either alternative, i.e. a leading run of backslashes when present,
otherwise a leading run of slashes. -/
def stripLeadingSeps (s : String) : String :=
  match s.data with
  | '\\' :: rest => ⟨rest.dropWhile (fun c => c = '\\')⟩
  | '/' :: rest => ⟨rest.dropWhile (fun c => c = '/')⟩
  | l => ⟨l⟩

/-- `src/server.js` lines 31-41: strip query and hash, substitute
`/index.html` for `/`, normalise, strip leading separators, join onto
`publicDir` and keep the result only when its string representation
starts with `publicDir`. -/
def safeResolveFromPublic (requestUrl : String) : Option String :=
  let urlPath := stripQueryHash requestUrl
  let rawPath := if urlPath = "/" then "/index.html" else urlPath
  let normalizedPath := stripLeadingSeps (pathNormalize rawPath)
  let resolved := pathJoin publicDir normalizedPath
  if strStartsWith resolved publicDir then some resolved else none

/-- `src/server.js` lines 43-46: MIME type from the lower-cased
extension, defaulting to `application/octet-stream`. -/
def getContentType (filePath : String) : String :=
  match contentTypes.lookup (toLowerStr (extname filePath)) with
  | some t => t
  | none => "application/octet-stream"

/-- File metadata snapshot (`fs.Stats`): inode, byte size, modification
time in milliseconds, and the `isDirectory()` flag.  The JS fields are
IEEE-754 doubles, hence bounded; modelling them as `Nat` is
conservative here, since every theorem quantifying over `Stat` only
gains instances from the larger domain (no existential over `Stat` is
asserted of the program). -/
structure Stat where
  ino : Nat
  size : Nat
  mtimeMs : Nat
  isDirectory : Bool
deriving DecidableEq

/-- The string `` `${stat.ino}-${stat.size}-${stat.mtimeMs}` `` hashed
by `computeEtag`. -/
def etagBase (st : Stat) : String :=
  natToDec st.ino ++ "-" ++ natToDec st.size ++ "-" ++ natToDec st.mtimeMs

/-- `src/server.js` lines 48-51: weak ETag `W/"<sha1-hex>"` over the
metadata string. -/
def computeEtag (st : Stat) : String :=
  "W/\"" ++ sha1Hex (strBytes (etagBase st)) ++ "\""

/-- `src/server.js` lines 53-59: substring-containment encoding choice
in priority order br, gzip, deflate; falsy (empty) header or no match
selects no compression.  The zlib compressor object paired with the
token in the JS return value is abstracted away; only the `enc` token
is kept. -/
def selectCompression (acceptEncoding : String) : Option String :=
  if acceptEncoding = "" then none
  else if strIncludes acceptEncoding "br" then some "br"
  else if strIncludes acceptEncoding "gzip" then some "gzip"
  else if strIncludes acceptEncoding "deflate" then some "deflate"
  else none

/-! ## Filesystem and request/response model -/

/-- A filesystem node: an entry with metadata and (for regular files)
contents, or nothing.  Stat errors of any kind (missing file,
permission) are modelled by `missing`. -/
inductive FsNode where
  | entry (st : Stat) (content : String)
  | missing
deriving DecidableEq

/-- The filesystem: a map from absolute path strings to nodes. -/
def Fs := String → FsNode

/-- `fs.promises.stat`: metadata, or failure. -/
def statFs (fs : Fs) (p : String) : Option Stat :=
  match fs p with
  | .entry st _ => some st
  | .missing => none

/-- `fs.promises.readFile`: contents of a regular file; fails on a
missing path and on a directory (`EISDIR`). -/
def readFileFs (fs : Fs) (p : String) : Option String :=
  match fs p with
  | .entry st content => if st.isDirectory then none else some content
  | .missing => none

/-- The request data consumed by the pipeline: URL and the three
headers it reads.  A header is `none` when absent (JS `undefined`). -/
structure Request where
  url : String
  ifNoneMatch : Option String
  ifModifiedSince : Option String
  acceptEncoding : Option String
deriving DecidableEq

/-- A response body descriptor: empty (`res.end()`), a fixed text or
buffer, or a file streamed through an optional compressor. -/
inductive BodySource where
  | empty
  | text (s : String)
  | fileStream (path : String) (compression : Option String)
deriving DecidableEq

/-- A response descriptor: status, headers in the order the handler
sets them, body source. -/
structure Response where
  status : Nat
  headers : List (String × String)
  body : BodySource
deriving DecidableEq

/-- First header value for a (case-sensitively matched) header name. -/
def headerVal (r : Response) (k : String) : Option String :=
  r.headers.lookup k

/-- `src/server.js` lines 76-80: resolver failure response. -/
def badRequestResponse : Response :=
  ⟨400, [("Content-Type", "text/plain; charset=utf-8")], .text "Bad Request"⟩

/-- `src/server.js` lines 91-102: on stat failure, serve
`publicDir/404.html` when readable, else a generic plain-text 404. -/
def notFoundResponse (fs : Fs) : Response :=
  match readFileFs fs (pathJoin publicDir "404.html") with
  | some nf => ⟨404, [("Content-Type", "text/html; charset=utf-8")], .text nf⟩
  | none => ⟨404, [("Content-Type", "text/plain; charset=utf-8")], .text "404 Not Found"⟩

/-- `src/server.js` lines 137-140: the response written by the
`readStream` error handler. -/
def streamErrorResponse : Response :=
  ⟨500, [("Content-Type", "text/plain; charset=utf-8")], .text "Server Error"⟩

/-- `src/server.js` lines 152-155: the catch-all error response. -/
def internalErrorResponse : Response :=
  ⟨500, [("Content-Type", "text/plain; charset=utf-8")], .text "Internal Server Error"⟩

/-- `src/server.js` lines 82-103 (the try block): stat the resolved
path; when it is a directory, append `index.html` and stat once more.
Returns the final path and metadata, or `none` when a stat threw. -/
def statWithIndex (fs : Fs) (p : String) : Option (String × Stat) :=
  match statFs fs p with
  | none => none
  | some st =>
    if st.isDirectory then
      match statFs fs (pathJoin p "index.html") with
      | none => none
      | some st2 => some (pathJoin p "index.html", st2)
    else some (p, st)

/-- `src/server.js` lines 105-151: conditional-cache check, header
assembly, compression selection and streaming, for a successfully
stat-ed path. -/
def serveFile (req : Request) (filePath : String) (st : Stat) : Response :=
  let contentType := getContentType filePath
  let etag := computeEtag st
  let lastModified := toUTCString st.mtimeMs
  if req.ifNoneMatch = some etag ∨ req.ifModifiedSince = some lastModified then
    ⟨304, [], .empty⟩
  else
    let cacheControl :=
      if strStartsWith contentType "text/html" then "no-cache"
      else "public, max-age=3600, immutable"
    let baseHeaders :=
      [("Content-Type", contentType), ("Last-Modified", lastModified),
       ("ETag", etag), ("Cache-Control", cacheControl)]
    match selectCompression ((req.acceptEncoding.getD "")) with
    | some enc =>
      ⟨200, baseHeaders ++ [("Content-Encoding", enc)], .fileStream filePath (some enc)⟩
    | none =>
      ⟨200, baseHeaders ++ [("Content-Length", natToDec st.size)], .fileStream filePath none⟩

/-- `src/server.js` lines 75-151: the static pipeline of the request
handler (`req.url || "/"` feeds the resolver; the `/api/health` JSON
route above it is out-of-scope plumbing per the specification). -/
def handleRequest (fs : Fs) (req : Request) : Response :=
  match safeResolveFromPublic (if req.url = "" then "/" else req.url) with
  | none => badRequestResponse
  | some resolvedPath =>
    match statWithIndex fs resolvedPath with
    | none => notFoundResponse fs
    | some (filePath, st) => serveFile req filePath st

/-! ## The express variant (`src/unnamed/part_001`, an `app.js` module)

Lines 23-67 of that file define `publicDir`, `contentTypes`,
`safeResolveFromPublic`, `getContentType`, `computeEtag` and
`selectCompression` again, line for line (single-quoted string
literals aside).  They are embedded here a second time, from that
source, to state the refinement claim between the two variants.
`__dirname` is modelled by the same representative install directory
as for `src/server.js`, so equality of paths "relative to the root"
is plain equality. -/

namespace AppVariant

/-- `src/unnamed/part_001` line 23: the express variant's root. -/
def publicDir : String := "/srv/app/public"

/-- `src/unnamed/part_001` lines 25-38: the extension map. -/
def contentTypes : List (String × String) :=
  [ (".html", "text/html; charset=utf-8"),
    (".css", "text/css; charset=utf-8"),
    (".js", "text/javascript; charset=utf-8"),
    (".mjs", "text/javascript; charset=utf-8"),
    (".json", "application/json; charset=utf-8"),
    (".svg", "image/svg+xml"),
    (".png", "image/png"),
    (".jpg", "image/jpeg"),
    (".jpeg", "image/jpeg"),
    (".gif", "image/gif"),
    (".ico", "image/x-icon"),
    (".webp", "image/webp") ]

/-- `src/unnamed/part_001` lines 40-49. -/
def safeResolveFromPublic (requestUrl : String) : Option String :=
  let urlPath := stripQueryHash requestUrl
  let rawPath := if urlPath = "/" then "/index.html" else urlPath
  let normalizedPath := stripLeadingSeps (pathNormalize rawPath)
  let resolved := pathJoin publicDir normalizedPath
  if strStartsWith resolved publicDir then some resolved else none

/-- `src/unnamed/part_001` lines 51-54. -/
def getContentType (filePath : String) : String :=
  match contentTypes.lookup (toLowerStr (extname filePath)) with
  | some t => t
  | none => "application/octet-stream"

/-- `src/unnamed/part_001` lines 56-59. -/
def computeEtag (st : Stat) : String :=
  "W/\"" ++ sha1Hex (strBytes (etagBase st)) ++ "\""

/-- `src/unnamed/part_001` lines 61-67. -/
def selectCompression (acceptEncoding : String) : Option String :=
  if acceptEncoding = "" then none
  else if strIncludes acceptEncoding "br" then some "br"
  else if strIncludes acceptEncoding "gzip" then some "gzip"
  else if strIncludes acceptEncoding "deflate" then some "deflate"
  else none

end AppVariant

/-! ## Lemmas about the path model -/

theorem splitOnChar_ne_nil (c : Char) (l : List Char) : splitOnChar c l ≠ [] := by
  cases l with
  | nil => simp [splitOnChar]
  | cons x xs =>
    rw [splitOnChar]
    rcases h : splitOnChar c xs with _ | ⟨s, ss⟩
    · simp
    · by_cases hx : x = c <;> simp [hx]

theorem splitOnChar_cons_sep (c : Char) (xs : List Char) :
    splitOnChar c (c :: xs) = [] :: splitOnChar c xs := by
  rw [splitOnChar]
  rcases h : splitOnChar c xs with _ | ⟨s, ss⟩
  · exact absurd h (splitOnChar_ne_nil c xs)
  · simp

theorem splitOnChar_cons_ne (c x : Char) (xs : List Char) (hx : x ≠ c) :
    ∃ s ss, splitOnChar c xs = s :: ss ∧ splitOnChar c (x :: xs) = (x :: s) :: ss := by
  rcases h : splitOnChar c xs with _ | ⟨s, ss⟩
  · exact absurd h (splitOnChar_ne_nil c xs)
  · refine ⟨s, ss, rfl, ?_⟩
    rw [splitOnChar, h]
    simp [hx]

theorem splitOnChar_sep_free (c : Char) (l : List Char) :
    ∀ seg ∈ splitOnChar c l, c ∉ seg := by
  induction l with
  | nil => simp [splitOnChar]
  | cons x xs ih =>
    by_cases hx : x = c
    · subst hx
      rw [splitOnChar_cons_sep]
      intro seg hseg
      rcases List.mem_cons.mp hseg with h | h
      · subst h; simp
      · exact ih seg h
    · obtain ⟨s, ss, hxs, hcons⟩ := splitOnChar_cons_ne c x xs hx
      rw [hcons]
      intro seg hseg
      rcases List.mem_cons.mp hseg with h | h
      · subst h
        intro hmem
        rcases List.mem_cons.mp hmem with h | h
        · exact hx h.symm
        · exact ih s (by rw [hxs]; exact List.mem_cons_self _ _) h
      · exact ih seg (by rw [hxs]; exact List.mem_cons_of_mem _ h)

/-- Prepending a separator-free run extends the first segment. -/
theorem splitOnChar_append_free (c : Char) (s : List Char) (hs : c ∉ s) (rest : List Char)
    (r : List Char) (rs : List (List Char)) (h : splitOnChar c rest = r :: rs) :
    splitOnChar c (s ++ rest) = (s ++ r) :: rs := by
  induction s with
  | nil => simpa using h
  | cons x xs ih =>
    have hx : x ≠ c := fun hxc => hs (hxc ▸ List.mem_cons_self _ _)
    have hxs : c ∉ xs := fun hmem => hs (List.mem_cons_of_mem _ hmem)
    obtain ⟨s', ss', heq, hcons⟩ := splitOnChar_cons_ne c x (xs ++ rest) hx
    rw [ih hxs] at heq
    cases heq
    simpa using hcons

/-- `splitOnChar` is a left inverse of `joinSegsC` on separator-free
segment lists. -/
theorem splitOnChar_joinSegsC (c : Char) (ss : List (List Char)) (hne : ss ≠ [])
    (hfree : ∀ s ∈ ss, c ∉ s) :
    splitOnChar c (joinSegsC c ss) = ss := by
  induction ss with
  | nil => exact absurd rfl hne
  | cons s ss ih =>
    cases ss with
    | nil =>
      have : splitOnChar c (s ++ ([] : List Char)) = (s ++ []) :: [] :=
        splitOnChar_append_free c s (hfree s (List.mem_cons_self _ _)) [] [] [] rfl
      simpa [joinSegsC] using this
    | cons t ts =>
      have hjoin : joinSegsC c (s :: t :: ts) = s ++ c :: joinSegsC c (t :: ts) := rfl
      have hrest : splitOnChar c (c :: joinSegsC c (t :: ts)) =
          [] :: splitOnChar c (joinSegsC c (t :: ts)) := splitOnChar_cons_sep c _
      have hih : splitOnChar c (joinSegsC c (t :: ts)) = t :: ts :=
        ih (by simp) (fun x hx => hfree x (List.mem_cons_of_mem _ hx))
      rw [hih] at hrest
      have := splitOnChar_append_free c s (hfree s (List.mem_cons_self _ _))
        (c :: joinSegsC c (t :: ts)) [] (t :: ts) hrest
      simpa [hjoin] using this

theorem joinSegsC_cons_cons (c : Char) (s x : List Char) (xs : List (List Char)) :
    joinSegsC c (s :: x :: xs) = s ++ c :: joinSegsC c (x :: xs) := rfl

/-- Rendering distributes over segment-list concatenation. -/
theorem joinSegsC_append (c : Char) (a b : List (List Char)) (ha : a ≠ []) (hb : b ≠ []) :
    joinSegsC c (a ++ b) = joinSegsC c a ++ c :: joinSegsC c b := by
  induction a with
  | nil => exact absurd rfl ha
  | cons s ss ih =>
    cases ss with
    | nil =>
      cases b with
      | nil => exact absurd rfl hb
      | cons t ts =>
        rw [List.singleton_append, joinSegsC_cons_cons]
        rfl
    | cons t ts =>
      have hih := ih (by simp)
      calc joinSegsC c ((s :: t :: ts) ++ b)
          = joinSegsC c (s :: ((t :: ts) ++ b)) := by simp
        _ = s ++ c :: joinSegsC c ((t :: ts) ++ b) := by
            rw [List.cons_append, joinSegsC_cons_cons]
        _ = s ++ c :: (joinSegsC c (t :: ts) ++ c :: joinSegsC c b) := by rw [hih]
        _ = (s ++ c :: joinSegsC c (t :: ts)) ++ c :: joinSegsC c b := by simp
        _ = joinSegsC c (s :: t :: ts) ++ c :: joinSegsC c b := by
            rw [joinSegsC_cons_cons]

/-- A segment that normalisation of an absolute path can emit: not
empty, not `"."`, not `".."`, and free of separators. -/
def GoodSeg (s : List Char) : Prop :=
  s ≠ [] ∧ s ≠ ['.'] ∧ s ≠ ['.', '.'] ∧ '/' ∉ s

instance (s : List Char) : Decidable (GoodSeg s) := by
  unfold GoodSeg; infer_instance

theorem normStep_false_good (acc : List (List Char)) (seg : List Char)
    (hacc : ∀ e ∈ acc, GoodSeg e) (hseg : '/' ∉ seg) :
    ∀ e ∈ normStep false acc seg, GoodSeg e := by
  unfold normStep
  by_cases h1 : seg = [] ∨ seg = ['.']
  · simpa [h1] using hacc
  · by_cases h2 : seg = ['.', '.']
    · simp only [h1, if_false, h2, if_true]
      cases acc with
      | nil => simp
      | cons last rest =>
        have hlast : GoodSeg last := hacc last (List.mem_cons_self _ _)
        have : last ≠ ['.', '.'] := hlast.2.2.1
        simp only [this, if_false]
        exact fun e he => hacc e (List.mem_cons_of_mem _ he)
    · simp only [h1, if_false, h2, if_false]
      intro e he
      rcases List.mem_cons.mp he with h | h
      · subst h
        push_neg at h1
        exact ⟨h1.1, h1.2, h2, hseg⟩
      · exact hacc e h

theorem foldl_normStep_false_good (segs : List (List Char)) (acc : List (List Char))
    (hacc : ∀ e ∈ acc, GoodSeg e) (hsegs : ∀ s ∈ segs, '/' ∉ s) :
    ∀ e ∈ segs.foldl (normStep false) acc, GoodSeg e := by
  induction segs generalizing acc with
  | nil => simpa using hacc
  | cons s ss ih =>
    rw [List.foldl_cons]
    exact ih (normStep false acc s)
      (normStep_false_good acc s hacc (hsegs s (List.mem_cons_self _ _)))
      (fun x hx => hsegs x (List.mem_cons_of_mem _ hx))

theorem normSegs_false_good (segs : List (List Char)) (hsegs : ∀ s ∈ segs, '/' ∉ s) :
    ∀ e ∈ normSegs false segs, GoodSeg e := by
  intro e he
  exact foldl_normStep_false_good segs [] (by simp) hsegs e (List.mem_reverse.mp he)

/-- On a list of good-or-empty segments, the stack loop just filters
out the empty segments (no `"."`/`".."` resolution fires). -/
theorem foldl_normStep_plain (ab : Bool) (segs : List (List Char)) (acc : List (List Char))
    (hsegs : ∀ s ∈ segs, GoodSeg s ∨ s = []) :
    segs.foldl (normStep ab) acc = (segs.filter (fun s => !s.isEmpty)).reverse ++ acc := by
  induction segs generalizing acc with
  | nil => simp
  | cons s ss ih =>
    rw [List.foldl_cons]
    rcases hsegs s (List.mem_cons_self _ _) with hg | he
    · have hstep : normStep ab acc s = s :: acc := by
        unfold normStep
        have h1 : ¬(s = [] ∨ s = ['.']) := by
          push_neg
          exact ⟨hg.1, hg.2.1⟩
        simp [h1, hg.2.2.1]
      rw [hstep, ih _ (fun x hx => hsegs x (List.mem_cons_of_mem _ hx))]
      have : s.isEmpty = false := by
        cases s with
        | nil => exact absurd rfl hg.1
        | cons a as => rfl
      simp [List.filter_cons, this]
    · subst he
      have hstep : normStep ab acc [] = acc := by unfold normStep; simp
      rw [hstep, ih _ (fun x hx => hsegs x (List.mem_cons_of_mem _ hx))]
      simp [List.filter_cons]

theorem normSegs_plain (ab : Bool) (segs : List (List Char))
    (hsegs : ∀ s ∈ segs, GoodSeg s ∨ s = []) :
    normSegs ab segs = segs.filter (fun s => !s.isEmpty) := by
  unfold normSegs
  rw [foldl_normStep_plain ab segs [] hsegs]
  simp

/-- Rendering a nonempty list of good segments is nonempty. -/
theorem joinSegsC_good_ne_nil (ss : List (List Char)) (hne : ss ≠ [])
    (hgood : ∀ s ∈ ss, GoodSeg s) : joinSegsC '/' ss ≠ [] := by
  cases ss with
  | nil => exact absurd rfl hne
  | cons s ts =>
    cases ts with
    | nil => exact hgood s (List.mem_cons_self _ _) |>.1
    | cons t ts' =>
      rw [joinSegsC_cons_cons]
      intro h
      rcases List.append_eq_nil.mp h with ⟨_, h2⟩
      exact List.cons_ne_nil _ _ h2

/-- The rendering of a nonempty list of good segments ends in a
non-separator character. -/
theorem joinSegsC_good_getLast (ss : List (List Char)) (hne : ss ≠ [])
    (hgood : ∀ s ∈ ss, GoodSeg s) :
    ∃ ch, (joinSegsC '/' ss).getLast? = some ch ∧ ch ≠ '/' := by
  induction ss with
  | nil => exact absurd rfl hne
  | cons s ts ih =>
    cases ts with
    | nil =>
      have hg := hgood s (List.mem_cons_self _ _)
      rcases List.exists_cons_of_ne_nil hg.1 with ⟨a, as, rfl⟩
      refine ⟨(a :: as).getLast (by simp), by simp [joinSegsC, List.getLast?_eq_getLast], ?_⟩
      intro h
      exact hg.2.2.2 (h ▸ List.getLast_mem _)
    | cons t ts' =>
      obtain ⟨ch, hch, hne'⟩ := ih (by simp) (fun x hx => hgood x (List.mem_cons_of_mem _ hx))
      refine ⟨ch, ?_, hne'⟩
      rw [joinSegsC_cons_cons]
      rw [List.getLast?_append]
      have : ('/' :: joinSegsC '/' (t :: ts')).getLast? = some ch := by
        have hnn : joinSegsC '/' (t :: ts') ≠ [] :=
          joinSegsC_good_ne_nil _ (by simp) (fun x hx => hgood x (List.mem_cons_of_mem _ hx))
        rw [show ('/' :: joinSegsC '/' (t :: ts')) = ['/'] ++ joinSegsC '/' (t :: ts') from rfl,
          List.getLast?_append, hch]
        rfl
      rw [this]
      rfl

/-- The rendering of a nonempty list of good segments starts with a
non-separator character. -/
theorem joinSegsC_good_head (ss : List (List Char)) (hne : ss ≠ [])
    (hgood : ∀ s ∈ ss, GoodSeg s) :
    ∃ ch rest, joinSegsC '/' ss = ch :: rest ∧ ch ≠ '/' := by
  cases ss with
  | nil => exact absurd rfl hne
  | cons s ts =>
    have hg := hgood s (List.mem_cons_self _ _)
    rcases List.exists_cons_of_ne_nil hg.1 with ⟨a, as, rfl⟩
    have ha : a ≠ '/' := fun h => hg.2.2.2 (h ▸ List.mem_cons_self _ _)
    cases ts with
    | nil => exact ⟨a, as, rfl, ha⟩
    | cons t ts' => exact ⟨a, as ++ '/' :: joinSegsC '/' (t :: ts'), by rw [joinSegsC_cons_cons]; simp, ha⟩

/-- Normalising an absolute path yields `"/"` or a slash followed by a
rendering of good segments, optionally with a trailing slash. -/
theorem normalizeChars_abs (l : List Char) :
    normalizeChars ('/' :: l) = ['/'] ∨
    ∃ good t, good ≠ [] ∧ (∀ e ∈ good, GoodSeg e) ∧
      normalizeChars ('/' :: l) = '/' :: (joinSegsC '/' good ++ t) ∧ (t = [] ∨ t = ['/']) := by
  have habs : isAbsL ('/' :: l) = true := rfl
  have hgood : ∀ e ∈ normSegs false (splitOnChar '/' ('/' :: l)), GoodSeg e :=
    normSegs_false_good _ (splitOnChar_sep_free '/' _)
  unfold normalizeChars
  simp only [List.cons_ne_nil, if_false, habs, Bool.not_true, reduceIte]
  by_cases hcore : joinSegsC '/' (normSegs false (splitOnChar '/' ('/' :: l))) = []
  · left
    simp [hcore]
  · right
    have hne : normSegs false (splitOnChar '/' ('/' :: l)) ≠ [] := by
      intro h
      exact hcore (by rw [h]; rfl)
    refine ⟨normSegs false (splitOnChar '/' ('/' :: l)),
      if hasTrailingSlash ('/' :: l) then ['/'] else [], hne, hgood, ?_, ?_⟩
    · simp only [hcore, if_false]
      by_cases ht : hasTrailingSlash ('/' :: l) <;> simp [ht]
    · by_cases ht : hasTrailingSlash ('/' :: l) <;> simp [ht]

/-- The decomposition of the root constant into segments. -/
theorem publicDir_data :
    publicDir.data = '/' :: joinSegsC '/' [['s','r','v'], ['a','p','p'], ['p','u','b','l','i','c']] := by
  rfl

theorem publicDir_segs_good :
    ∀ e ∈ [['s','r','v'], ['a','p','p'], ['p','u','b','l','i','c']], GoodSeg e := by
  decide

/-- Normalisation is the identity on `'/' :: rendering of good
segments (optionally slash-terminated)`. -/
theorem normalizeChars_canonical (S : List (List Char)) (t : List Char) (hS : S ≠ [])
    (hgood : ∀ e ∈ S, GoodSeg e) (ht : t = [] ∨ t = ['/']) :
    normalizeChars ('/' :: (joinSegsC '/' S ++ t)) = '/' :: (joinSegsC '/' S ++ t) := by
  have hfree : ∀ s ∈ S, '/' ∉ s := fun s hs => (hgood s hs).2.2.2
  -- the segment list of the input
  have hsplit : splitOnChar '/' ('/' :: (joinSegsC '/' S ++ t)) =
      [] :: (S ++ if t = [] then [] else [[]]) := by
    rcases ht with rfl | rfl
    · rw [List.append_nil, splitOnChar_cons_sep, splitOnChar_joinSegsC '/' S hS hfree]
      simp
    · have h1 : joinSegsC '/' S ++ ['/'] = joinSegsC '/' (S ++ [[]]) := by
        rw [joinSegsC_append '/' S [[]] hS (by simp)]
        rfl
      rw [h1, splitOnChar_cons_sep, splitOnChar_joinSegsC '/' (S ++ [[]]) (by simp)]
      · simp
      · intro s hs
        rcases List.mem_append.mp hs with h | h
        · exact hfree s h
        · simp at h
          subst h
          simp
  have hplain : ∀ s ∈ ([] :: (S ++ if t = [] then [] else [[]]) : List (List Char)),
      GoodSeg s ∨ s = [] := by
    intro s hs
    rcases List.mem_cons.mp hs with h | h
    · right; exact h
    · rcases List.mem_append.mp h with h | h
      · left; exact hgood s h
      · right
        rcases ht with rfl | rfl
        · simp at h
        · simpa using h
  have hfilter : (([] :: (S ++ if t = [] then [] else [[]])).filter (fun s => !s.isEmpty)) = S := by
    have hSfilter : S.filter (fun s => !s.isEmpty) = S := by
      apply List.filter_eq_self.mpr
      intro s hs
      rcases List.exists_cons_of_ne_nil (hgood s hs).1 with ⟨a, as, rfl⟩
      rfl
    rcases ht with rfl | rfl <;> simp [List.filter_cons, List.filter_append, hSfilter]
  have hcorene : joinSegsC '/' S ≠ [] := joinSegsC_good_ne_nil S hS hgood
  unfold normalizeChars
  simp only [List.cons_ne_nil, if_false]
  have habs : isAbsL ('/' :: (joinSegsC '/' S ++ t)) = true := rfl
  rw [habs]
  simp only [Bool.not_true, reduceIte]
  rw [hsplit, normSegs_plain false _ hplain, hfilter]
  rcases ht with rfl | rfl
  · have htrail : hasTrailingSlash ('/' :: (joinSegsC '/' S ++ ([] : List Char))) = false := by
      obtain ⟨ch, hch, hchne⟩ := joinSegsC_good_getLast S hS hgood
      unfold hasTrailingSlash
      rw [List.append_nil,
        show ('/' :: joinSegsC '/' S) = ['/'] ++ joinSegsC '/' S from rfl,
        List.getLast?_append, hch]
      simpa using hchne
    rw [htrail]
    simp [hcorene]
  · have htrail : hasTrailingSlash ('/' :: (joinSegsC '/' S ++ ['/'])) = true := by
      unfold hasTrailingSlash
      rw [show ('/' :: (joinSegsC '/' S ++ ['/'])) = ('/' :: joinSegsC '/' S) ++ ['/'] from by simp,
        List.getLast?_concat]
      simp
    rw [htrail]
    simp [hcorene]

/-- Abbreviation for the segments of the root constant. -/
def pubSegs : List (List Char) := [['s','r','v'], ['a','p','p'], ['p','u','b','l','i','c']]

/-- Joining a rendered good-segment path (with optional trailing
slash) onto the root just concatenates, separated by a slash. -/
theorem pathJoin_canonical (good : List (List Char)) (t : List Char) (hg : good ≠ [])
    (hgood : ∀ e ∈ good, GoodSeg e) (ht : t = [] ∨ t = ['/']) :
    pathJoin publicDir ⟨joinSegsC '/' good ++ t⟩ =
      ⟨publicDir.data ++ '/' :: (joinSegsC '/' good ++ t)⟩ := by
  have hbne : (⟨joinSegsC '/' good ++ t⟩ : String) ≠ "" := by
    intro h
    have : joinSegsC '/' good ++ t = [] := congrArg String.data h
    exact joinSegsC_good_ne_nil good hg hgood (List.append_eq_nil.mp this).1
  have hpub : (publicDir : String) ≠ "" := by decide
  unfold pathJoin
  rw [if_neg hpub, if_neg hbne]
  have hdata : (publicDir ++ "/" ++ (⟨joinSegsC '/' good ++ t⟩ : String)).data =
      '/' :: (joinSegsC '/' (pubSegs ++ good) ++ t) := by
    show (publicDir ++ "/" ++ (⟨joinSegsC '/' good ++ t⟩ : String)).data = _
    rw [String.data_append, String.data_append]
    rw [publicDir_data]
    show ('/' :: joinSegsC '/' pubSegs) ++ ['/'] ++ (joinSegsC '/' good ++ t) = _
    rw [joinSegsC_append '/' pubSegs good (by simp [pubSegs]) hg]
    simp [pubSegs]
  unfold pathNormalize
  rw [hdata]
  have hSgood : ∀ e ∈ pubSegs ++ good, GoodSeg e := by
    intro e he
    rcases List.mem_append.mp he with h | h
    · revert h
      have : ∀ e ∈ pubSegs, GoodSeg e := by decide
      exact this e
    · exact hgood e h
  rw [normalizeChars_canonical (pubSegs ++ good) t (by simp [pubSegs]) hSgood ht]
  have : '/' :: (joinSegsC '/' (pubSegs ++ good) ++ t) =
      publicDir.data ++ '/' :: (joinSegsC '/' good ++ t) := by
    rw [publicDir_data, joinSegsC_append '/' pubSegs good (by simp [pubSegs]) hg]
    simp [pubSegs]
  rw [this]

/-- Splitting behaviour of the resolver's leading-separator strip on
the two shapes normalisation of an absolute path can produce. -/
theorem stripLeadingSeps_abs_root : stripLeadingSeps ⟨['/']⟩ = "" := rfl

theorem stripLeadingSeps_abs_core (good : List (List Char)) (t : List Char) (hg : good ≠ [])
    (hgood : ∀ e ∈ good, GoodSeg e) :
    stripLeadingSeps ⟨'/' :: (joinSegsC '/' good ++ t)⟩ = ⟨joinSegsC '/' good ++ t⟩ := by
  obtain ⟨ch, rest, hhead, hne⟩ := joinSegsC_good_head good hg hgood
  unfold stripLeadingSeps
  rw [show (⟨'/' :: (joinSegsC '/' good ++ t)⟩ : String).data = '/' :: (joinSegsC '/' good ++ t)
      from rfl]
  rw [hhead]
  simp [List.dropWhile_cons, hne]

/-- Every successful resolution of a slash-initial request path stays
inside the root: the result is the root itself or extends it past a
separator. -/
theorem safeResolve_within (url : String) (l : List Char) (hurl : url.data = '/' :: l) :
    ∀ p, safeResolveFromPublic url = some p →
      p = publicDir ∨ strStartsWith p (publicDir ++ "/") = true := by
  intro p hp
  -- the query/hash strip keeps the leading slash
  have hq : ∃ m, (stripQueryHash url).data = '/' :: m := by
    refine ⟨(l.takeWhile (fun c => c ≠ '?')).takeWhile (fun c => c ≠ '#'), ?_⟩
    unfold stripQueryHash
    rw [hurl]
    rfl
  obtain ⟨m, hm⟩ := hq
  -- the raw path keeps the leading slash
  have hraw : ∃ m', (if stripQueryHash url = "/" then "/index.html" else stripQueryHash url).data
      = '/' :: m' := by
    by_cases h : stripQueryHash url = "/"
    · exact ⟨"index.html".data, by rw [if_pos h]⟩
    · exact ⟨m, by rw [if_neg h]; exact hm⟩
  obtain ⟨m', hm'⟩ := hraw
  set rawPath := (if stripQueryHash url = "/" then "/index.html" else stripQueryHash url) with hrawdef
  have hnorm : (pathNormalize rawPath).data = normalizeChars ('/' :: m') := by
    unfold pathNormalize
    rw [hm']
  rcases normalizeChars_abs m' with habs | ⟨good, t, hg, hgood, habs, ht⟩
  · -- normalisation collapsed to the bare root
    have hstr : stripLeadingSeps (pathNormalize rawPath) = "" := by
      have : pathNormalize rawPath = ⟨['/']⟩ := by
        apply String.ext
        rw [hnorm, habs]
      rw [this]
      rfl
    have hres : pathJoin publicDir "" = publicDir := by decide
    have : safeResolveFromPublic url = some publicDir := by
      simp only [safeResolveFromPublic]
      rw [← hrawdef, hstr, hres]
      all_goals rw [if_pos (show strStartsWith publicDir publicDir = true by decide)]
    rw [this] at hp
    exact Or.inl (Option.some_injective _ hp).symm
  · -- normalisation produced a path below the root
    have hstr : stripLeadingSeps (pathNormalize rawPath) = ⟨joinSegsC '/' good ++ t⟩ := by
      have : pathNormalize rawPath = ⟨'/' :: (joinSegsC '/' good ++ t)⟩ := by
        apply String.ext
        rw [hnorm, habs]
      rw [this]
      exact stripLeadingSeps_abs_core good t hg hgood
    have hres : pathJoin publicDir (stripLeadingSeps (pathNormalize rawPath)) =
        ⟨publicDir.data ++ '/' :: (joinSegsC '/' good ++ t)⟩ := by
      rw [hstr]
      exact pathJoin_canonical good t hg hgood ht
    have hguard : strStartsWith ⟨publicDir.data ++ '/' :: (joinSegsC '/' good ++ t)⟩ publicDir
        = true := by
      unfold strStartsWith
      rw [List.isPrefixOf_iff_prefix]
      exact List.prefix_append _ _
    have : safeResolveFromPublic url =
        some ⟨publicDir.data ++ '/' :: (joinSegsC '/' good ++ t)⟩ := by
      simp only [safeResolveFromPublic]
      rw [← hrawdef, hres]
      all_goals rw [if_pos hguard]
    rw [this] at hp
    right
    have hpdata : p.data = publicDir.data ++ '/' :: (joinSegsC '/' good ++ t) :=
      congrArg String.data (Option.some_injective _ hp).symm
    unfold strStartsWith
    rw [List.isPrefixOf_iff_prefix, hpdata, String.data_append]
    show publicDir.data ++ ['/'] <+: publicDir.data ++ '/' :: (joinSegsC '/' good ++ t)
    rw [show publicDir.data ++ '/' :: (joinSegsC '/' good ++ t) =
      (publicDir.data ++ ['/']) ++ (joinSegsC '/' good ++ t) from by simp]
    exact List.prefix_append _ _

/-! ## Lemmas about the ETag computation -/

/-- Digit characters are never the dash separator. -/
theorem decDigitChar_ne_dash (d : Nat) : decDigitChar d ≠ '-' := by
  rcases d with _ | _ | _ | _ | _ | _ | _ | _ | _ | d
  all_goals try decide
  exact (by decide : ('9' : Char) ≠ '-')

theorem decDigits_no_dash (n : Nat) : ∀ c ∈ decDigits n, c ≠ '-' := by
  induction n using Nat.strong_induction_on with
  | _ n ih =>
    by_cases h : n = 0
    · subst h; rw [decDigits]; simp
    · rw [decDigits]
      simp only [h, dite_false]
      intro c hc
      rcases List.mem_append.mp hc with hm | hm
      · exact ih (n / 10) (Nat.div_lt_self (Nat.pos_of_ne_zero h) (by omega)) c hm
      · simp at hm
        subst hm
        exact decDigitChar_ne_dash _

theorem natToDec_no_dash (n : Nat) : ∀ c ∈ (natToDec n).data, c ≠ '-' := by
  unfold natToDec
  by_cases h : n = 0
  · simp [h]
  · simp only [h, if_false]
    exact decDigits_no_dash n

/-- The ETag base string splits uniquely into its three decimal
components. -/
theorem etagBase_data (st : Stat) :
    (etagBase st).data = joinSegsC '-'
      [(natToDec st.ino).data, (natToDec st.size).data, (natToDec st.mtimeMs).data] := by
  unfold etagBase
  rw [String.data_append, String.data_append, String.data_append, String.data_append]
  show _ = (natToDec st.ino).data ++ '-' :: ((natToDec st.size).data ++ '-' :: (natToDec st.mtimeMs).data)
  simp

/-- The hash input is injective in the metadata triple. -/
theorem etagBase_inj (m m' : Stat) (h : etagBase m = etagBase m') :
    m.ino = m'.ino ∧ m.size = m'.size ∧ m.mtimeMs = m'.mtimeMs := by
  have hd := congrArg String.data h
  rw [etagBase_data, etagBase_data] at hd
  have hfree : ∀ (st : Stat), ∀ s ∈ [(natToDec st.ino).data, (natToDec st.size).data,
      (natToDec st.mtimeMs).data], '-' ∉ s := by
    intro st s hs hmem
    rcases List.mem_cons.mp hs with h' | h'
    · exact natToDec_no_dash _ '-' (h' ▸ hmem) rfl
    · rcases List.mem_cons.mp h' with h'' | h''
      · exact natToDec_no_dash _ '-' (h'' ▸ hmem) rfl
      · rcases List.mem_cons.mp h'' with h3 | h3
        · exact natToDec_no_dash _ '-' (h3 ▸ hmem) rfl
        · simp at h3
  have hsplit := congrArg (splitOnChar '-') hd
  rw [splitOnChar_joinSegsC '-' _ (by simp) (hfree m),
    splitOnChar_joinSegsC '-' _ (by simp) (hfree m')] at hsplit
  simp only [List.cons.injEq, and_true] at hsplit
  obtain ⟨h1, h2, h3⟩ := hsplit
  exact ⟨natToDec_inj _ _ (String.ext h1), natToDec_inj _ _ (String.ext h2),
    natToDec_inj _ _ (String.ext h3)⟩

/-- Hex characters produced by the digest rendering. -/
def isHexCh (c : Char) : Bool :=
  ("0123456789abcdef".data.contains c)

theorem hexDigitChar_hex (n : Nat) : isHexCh (hexDigitChar (n % 16)) = true := by
  have h : n % 16 < 16 := Nat.mod_lt _ (by omega)
  revert h
  generalize n % 16 = d
  intro h
  interval_cases d <;> decide

theorem toHex8_length (n : Nat) : (toHex8 n).length = 8 := by
  simp [toHex8, String.length]

theorem toHex8_hex (n : Nat) : ∀ c ∈ (toHex8 n).data, isHexCh c = true := by
  intro c hc
  simp only [toHex8, List.mem_map] at hc
  obtain ⟨i, _, rfl⟩ := hc
  exact hexDigitChar_hex _

theorem sha1Hex_length (m : List Nat) : (sha1Hex m).length = 40 := by
  unfold sha1Hex
  simp [String.length_append, toHex8_length]

theorem sha1Hex_hex (m : List Nat) : ∀ c ∈ (sha1Hex m).data, isHexCh c = true := by
  unfold sha1Hex
  intro c hc
  simp only [String.data_append, List.mem_append] at hc
  rcases hc with ((((h | h) | h) | h) | h) <;> exact toHex8_hex _ c h

/-! ## Lemmas about the pipeline -/

/-- Resolver failure yields the terminal 400. -/
theorem handleRequest_badRequest (fs : Fs) (req : Request)
    (h : safeResolveFromPublic (if req.url = "" then "/" else req.url) = none) :
    handleRequest fs req = badRequestResponse := by
  unfold handleRequest
  rw [h]

/-- Stat failure yields the 404 fallback. -/
theorem handleRequest_notFound (fs : Fs) (req : Request) (p : String)
    (hres : safeResolveFromPublic (if req.url = "" then "/" else req.url) = some p)
    (hstat : statWithIndex fs p = none) :
    handleRequest fs req = notFoundResponse fs := by
  simp only [handleRequest, hres, hstat]

/-- Stat success hands over to the conditional/stream stage. -/
theorem handleRequest_serve (fs : Fs) (req : Request) (p fp : String) (st : Stat)
    (hres : safeResolveFromPublic (if req.url = "" then "/" else req.url) = some p)
    (hstat : statWithIndex fs p = some (fp, st)) :
    handleRequest fs req = serveFile req fp st := by
  simp only [handleRequest, hres, hstat]

/-- A successful resolution always passes the `startsWith` guard. -/
theorem safeResolve_guard (url p : String) (h : safeResolveFromPublic url = some p) :
    strStartsWith p publicDir = true := by
  simp only [safeResolveFromPublic] at h
  generalize hR : pathJoin publicDir (stripLeadingSeps (pathNormalize
    (if stripQueryHash url = "/" then "/index.html" else stripQueryHash url))) = R at h
  split at h
  · cases h
    assumption
  · cases h

/-- The freshness condition the code tests, verbatim: exact string
equality against either validator header. -/
def isFresh (req : Request) (st : Stat) : Prop :=
  req.ifNoneMatch = some (computeEtag st) ∨ req.ifModifiedSince = some (toUTCString st.mtimeMs)

instance (req : Request) (st : Stat) : Decidable (isFresh req st) := by
  unfold isFresh; infer_instance

theorem serveFile_fresh (req : Request) (fp : String) (st : Stat) (h : isFresh req st) :
    serveFile req fp st = ⟨304, [], .empty⟩ := by
  have h' : req.ifNoneMatch = some (computeEtag st) ∨
      req.ifModifiedSince = some (toUTCString st.mtimeMs) := h
  simp only [serveFile]
  rw [if_pos h']

theorem serveFile_stale_none (req : Request) (fp : String) (st : Stat) (h : ¬ isFresh req st)
    (hc : selectCompression (req.acceptEncoding.getD "") = none) :
    serveFile req fp st =
      ⟨200,
        [("Content-Type", getContentType fp), ("Last-Modified", toUTCString st.mtimeMs),
         ("ETag", computeEtag st),
         ("Cache-Control", if strStartsWith (getContentType fp) "text/html" then "no-cache"
            else "public, max-age=3600, immutable"),
         ("Content-Length", natToDec st.size)],
        .fileStream fp none⟩ := by
  have h' : ¬ (req.ifNoneMatch = some (computeEtag st) ∨
      req.ifModifiedSince = some (toUTCString st.mtimeMs)) := h
  simp only [serveFile]
  rw [if_neg h', hc]
  rfl

theorem serveFile_stale_some (req : Request) (fp : String) (st : Stat) (enc : String)
    (h : ¬ isFresh req st)
    (hc : selectCompression (req.acceptEncoding.getD "") = some enc) :
    serveFile req fp st =
      ⟨200,
        [("Content-Type", getContentType fp), ("Last-Modified", toUTCString st.mtimeMs),
         ("ETag", computeEtag st),
         ("Cache-Control", if strStartsWith (getContentType fp) "text/html" then "no-cache"
            else "public, max-age=3600, immutable"),
         ("Content-Encoding", enc)],
        .fileStream fp (some enc)⟩ := by
  have h' : ¬ (req.ifNoneMatch = some (computeEtag st) ∨
      req.ifModifiedSince = some (toUTCString st.mtimeMs)) := h
  simp only [serveFile]
  rw [if_neg h', hc]
  rfl

/-- A stale request is answered with status 200 whatever the
compression choice. -/
theorem serveFile_stale_status (req : Request) (fp : String) (st : Stat) (h : ¬ isFresh req st) :
    (serveFile req fp st).status = 200 := by
  rcases hc : selectCompression (req.acceptEncoding.getD "") with _ | enc
  · rw [serveFile_stale_none req fp st h hc]
  · rw [serveFile_stale_some req fp st enc h hc]

/-! ## Concrete fixtures for witnesses and counterexamples -/

/-- The empty filesystem. -/
def fsEmpty : Fs := fun _ => FsNode.missing

/-- Metadata of a small regular file. -/
def st0 : Stat := ⟨1, 2, 0, false⟩

/-- A filesystem holding one regular file `a.txt` under the root. -/
def fs1 : Fs := fun p =>
  if p = "/srv/app/public/a.txt" then .entry st0 "hi" else .missing

/-- Directory metadata. -/
def dirSt : Stat := ⟨9, 0, 0, true⟩

/-- A filesystem where `d` is a directory whose `index.html` entry is
itself a directory. -/
def fs2 : Fs := fun p =>
  if p = "/srv/app/public/d" then .entry dirSt ""
  else if p = "/srv/app/public/d/index.html" then .entry dirSt ""
  else .missing

/-- A filesystem with a custom 404 page and nothing else. -/
def fs404 : Fs := fun p =>
  if p = "/srv/app/public/404.html" then .entry st0 "<h1>lost</h1>" else .missing

/-! ## Claim theorems -/

/-- Claim C1, counterexample.  The claim says every successfully
resolved path begins with the root's string representation plus a
separator.  It fails twice: the request `"../publicX"` (no leading
slash, so normalisation keeps the `..`) resolves to the sibling
`/srv/app/publicX`, which passes the `startsWith` guard yet lies
outside the root; and `"//"` resolves to the root itself, which does
not extend past a separator. -/
theorem c1_counterexample :
    (safeResolveFromPublic "../publicX" = some "/srv/app/publicX" ∧
      strStartsWith "/srv/app/publicX" (publicDir ++ "/") = false ∧
      strStartsWith "/srv/app/publicX" publicDir = true) ∧
    (safeResolveFromPublic "//" = some publicDir ∧
      strStartsWith publicDir (publicDir ++ "/") = false) := by
  decide

/-- Claim C1, amended.  For every request path that begins with a
slash (every origin-form HTTP request target), whenever
`safeResolveFromPublic` returns a resolved path, that path either is
the root directory itself or begins with the root plus its
separator, so it lies within the configured root. -/
theorem c1_resolved_within_root (url p : String)
    (habs : strStartsWith url "/" = true)
    (h : safeResolveFromPublic url = some p) :
    p = publicDir ∨ strStartsWith p (publicDir ++ "/") = true := by
  unfold strStartsWith at habs
  rw [List.isPrefixOf_iff_prefix] at habs
  obtain ⟨l, hl⟩ := habs
  have hurl : url.data = '/' :: l := by
    rw [← hl]
    rfl
  exact safeResolve_within url l hurl p h

/-- Claim C1, witness: `/index.html` resolves below the root. -/
theorem c1_witness :
    ("/srv/app/public/index.html" : String) = publicDir ∨
      strStartsWith "/srv/app/public/index.html" (publicDir ++ "/") = true :=
  c1_resolved_within_root "/index.html" "/srv/app/public/index.html" (by decide) (by decide)

/-- Claim C2, counterexample.  The claim says every request path with
a traversal sequence is rejected (null) and answered 400.  In fact
`path.normalize` clamps `/../../etc/passwd` at the root before the
guard runs, so the resolver returns `<root>/etc/passwd` and the
pipeline proceeds to the 404 path (no such file), not to 400. -/
theorem c2_counterexample :
    safeResolveFromPublic "/../../etc/passwd" = some "/srv/app/public/etc/passwd" ∧
    (handleRequest fsEmpty ⟨"/../../etc/passwd", none, none, none⟩).status = 404 := by
  decide

/-- Claim C2, amended.  When the resolver does reject (return null),
the pipeline answers the terminal 400 plain-text response with no
further processing; every path the resolver accepts starts with the
root's string representation (the guard itself); but slash-initial
traversal sequences are neutralised by normalisation rather than
rejected — `/../../etc/passwd` resolves inside the root. -/
theorem c2_traversal_neutralized :
    (∀ (fs : Fs) (req : Request),
      safeResolveFromPublic (if req.url = "" then "/" else req.url) = none →
        handleRequest fs req = badRequestResponse) ∧
    (∀ url p, safeResolveFromPublic url = some p → strStartsWith p publicDir = true) ∧
    safeResolveFromPublic "/../../etc/passwd" = some (publicDir ++ "/etc/passwd") :=
  ⟨handleRequest_badRequest, safeResolve_guard, by decide⟩

/-- Claim C2, witness: a relative traversal that escapes the root
prefix is rejected and answered 400. -/
theorem c2_witness :
    handleRequest fsEmpty ⟨"../etc/passwd", none, none, none⟩ = badRequestResponse :=
  c2_traversal_neutralized.1 fsEmpty ⟨"../etc/passwd", none, none, none⟩ (by decide)

/-- Claim C4, counterexample.  The claim says that when the directory's
`index.html` is itself a directory this is treated as a stat failure
and the pipeline falls into the 404 path.  The code never re-checks
`isDirectory` after the second stat: with `d` and `d/index.html` both
directories, the second stat succeeds and the pipeline serves a 200,
not a 404. -/
theorem c4_counterexample :
    statWithIndex fs2 "/srv/app/public/d" = some ("/srv/app/public/d/index.html", dirSt) ∧
    dirSt.isDirectory = true ∧
    (handleRequest fs2 ⟨"/d", none, none, none⟩).status = 200 := by
  decide

/-- Claim C4, amended.  A resolved directory gets `index.html`
appended and is stat-ed exactly once more, with no further directory
recursion: the outcome is exactly the second stat's result (a failure
falls into the 404 path; a success is served even when the metadata
is again a directory). -/
theorem c4_index_appended_once (fs : Fs) (p : String) (st : Stat)
    (hstat : statFs fs p = some st) (hdir : st.isDirectory = true) :
    statWithIndex fs p =
      (statFs fs (pathJoin p "index.html")).map
        (fun st2 => (pathJoin p "index.html", st2)) := by
  simp only [statWithIndex, hstat, hdir, if_true]
  rcases h : statFs fs (pathJoin p "index.html") with _ | st2 <;> simp [h]

/-- Claim C4, witness: the directory fixture stats its `index.html`
exactly once. -/
theorem c4_witness :
    statWithIndex fs2 "/srv/app/public/d" =
      (statFs fs2 (pathJoin "/srv/app/public/d" "index.html")).map
        (fun st2 => (pathJoin "/srv/app/public/d" "index.html", st2)) :=
  c4_index_appended_once fs2 "/srv/app/public/d" dirSt (by decide) (by decide)

/-- Claim C6: `selectCompression` picks brotli when the header
contains the `br` token as a substring, else gzip on its token, else
deflate on its token, else nothing; and the empty (absent) header
yields nothing.  Concretely, `gzip, br` selects brotli over gzip and
`gzip` alone selects gzip. -/
theorem c6_compression_policy :
    (∀ s : String, selectCompression s =
      (if strIncludes s "br" then some "br"
       else if strIncludes s "gzip" then some "gzip"
       else if strIncludes s "deflate" then some "deflate"
       else none)) ∧
    selectCompression "" = none ∧
    selectCompression "gzip, br" = some "br" ∧
    selectCompression "gzip" = some "gzip" := by
  refine ⟨?_, by decide, by decide, by decide⟩
  intro s
  by_cases h : s = ""
  · subst h
    decide
  · unfold selectCompression
    rw [if_neg h]

/-- Claim C10: the four core functions of the two server variants are
extensionally equal (with the two `__dirname`-derived roots modelled
by the same representative directory, path equality relative to the
root is plain equality). -/
theorem c10_variants_agree :
    (∀ u, safeResolveFromPublic u = AppVariant.safeResolveFromPublic u) ∧
    (∀ p, getContentType p = AppVariant.getContentType p) ∧
    (∀ st : Stat, computeEtag st = AppVariant.computeEtag st) ∧
    (∀ s, selectCompression s = AppVariant.selectCompression s) :=
  ⟨fun _ => rfl, fun _ => rfl, fun _ => rfl, fun _ => rfl⟩

/-- Claim C3: when the request resolves and stats to an existing
file, the pipeline answers 304 with empty body and no headers if and
only if `If-None-Match` equals the computed ETag exactly or
`If-Modified-Since` equals the computed Last-Modified string exactly
(plain string equality). -/
theorem c3_fresh_304_iff (fs : Fs) (req : Request) (p fp : String) (st : Stat)
    (hres : safeResolveFromPublic (if req.url = "" then "/" else req.url) = some p)
    (hstat : statWithIndex fs p = some (fp, st))
    (hfile : st.isDirectory = false) :
    ((handleRequest fs req).status = 304 ∧ (handleRequest fs req).headers = [] ∧
      (handleRequest fs req).body = BodySource.empty) ↔
    (req.ifNoneMatch = some (computeEtag st) ∨
      req.ifModifiedSince = some (toUTCString st.mtimeMs)) := by
  rw [handleRequest_serve fs req p fp st hres hstat]
  by_cases hfresh : isFresh req st
  · rw [serveFile_fresh req fp st hfresh]
    exact iff_of_true ⟨rfl, rfl, rfl⟩ hfresh
  · have hst := serveFile_stale_status req fp st hfresh
    constructor
    · rintro ⟨h304, -, -⟩
      omega
    · intro hr
      exact absurd hr hfresh

/-- Claim C3, witness: a request whose `If-Modified-Since` equals
the file's Last-Modified string is answered 304, empty, header-free. -/
theorem c3_witness :
    (handleRequest fs1 ⟨"/a.txt", none, some (toUTCString 0), none⟩).status = 304 ∧
    (handleRequest fs1 ⟨"/a.txt", none, some (toUTCString 0), none⟩).headers = [] ∧
    (handleRequest fs1 ⟨"/a.txt", none, some (toUTCString 0), none⟩).body = BodySource.empty :=
  (c3_fresh_304_iff fs1 ⟨"/a.txt", none, some (toUTCString 0), none⟩ "/srv/app/public/a.txt"
    "/srv/app/public/a.txt" st0 (by decide) (by decide) (by decide)).mpr (Or.inr rfl)

/-- Claim C5: every error response of the pipeline (status 400, 404
or 500, including the stream-error and catch-all 500 responses)
carries only its minimal body and never an `ETag` or `Last-Modified`
header. -/
theorem c5_errors_without_validators :
    (∀ (fs : Fs) (req : Request),
      ((handleRequest fs req).status = 400 ∨ (handleRequest fs req).status = 404 ∨
        (handleRequest fs req).status = 500) →
      headerVal (handleRequest fs req) "ETag" = none ∧
        headerVal (handleRequest fs req) "Last-Modified" = none) ∧
    (headerVal streamErrorResponse "ETag" = none ∧
      headerVal streamErrorResponse "Last-Modified" = none) ∧
    (headerVal internalErrorResponse "ETag" = none ∧
      headerVal internalErrorResponse "Last-Modified" = none) := by
  refine ⟨?_, by decide, by decide⟩
  intro fs req hstatus
  rcases hr : safeResolveFromPublic (if req.url = "" then "/" else req.url) with _ | p
  · rw [handleRequest_badRequest fs req hr]
    exact ⟨rfl, rfl⟩
  · rcases hs : statWithIndex fs p with _ | ⟨fp, st⟩
    · rw [handleRequest_notFound fs req p hr hs]
      unfold notFoundResponse
      rcases h4 : readFileFs fs (pathJoin publicDir "404.html") with _ | nf
      · exact ⟨rfl, rfl⟩
      · exact ⟨rfl, rfl⟩
    · rw [handleRequest_serve fs req p fp st hr hs] at hstatus ⊢
      by_cases hfresh : isFresh req st
      · rw [serveFile_fresh req fp st hfresh] at hstatus
        simp at hstatus
      · have hst := serveFile_stale_status req fp st hfresh
        omega

/-- Claim C5, witness: a missing file on the empty filesystem is
answered 404 without validator headers. -/
theorem c5_witness :
    headerVal (handleRequest fsEmpty ⟨"/nope.txt", none, none, none⟩) "ETag" = none ∧
    headerVal (handleRequest fsEmpty ⟨"/nope.txt", none, none, none⟩) "Last-Modified" = none :=
  c5_errors_without_validators.1 fsEmpty ⟨"/nope.txt", none, none, none⟩
    (Or.inr (Or.inl (by decide)))

/-- Claim C7: a 200 file response carries an exact `Content-Length`
equal to the stat size and no `Content-Encoding` when no compression
was chosen, and carries `Content-Encoding` with the chosen token and
no `Content-Length` when compression was chosen. -/
theorem c7_length_xor_encoding (fs : Fs) (req : Request) (p fp : String) (st : Stat)
    (hres : safeResolveFromPublic (if req.url = "" then "/" else req.url) = some p)
    (hstat : statWithIndex fs p = some (fp, st))
    (hstale : ¬ isFresh req st) :
    (handleRequest fs req).status = 200 ∧
    (match selectCompression (req.acceptEncoding.getD "") with
     | none => headerVal (handleRequest fs req) "Content-Length" = some (natToDec st.size) ∧
         headerVal (handleRequest fs req) "Content-Encoding" = none
     | some enc => headerVal (handleRequest fs req) "Content-Length" = none ∧
         headerVal (handleRequest fs req) "Content-Encoding" = some enc) := by
  rw [handleRequest_serve fs req p fp st hres hstat]
  rcases hc : selectCompression (req.acceptEncoding.getD "") with _ | enc
  · rw [serveFile_stale_none req fp st hstale hc]
    exact ⟨rfl, rfl, rfl⟩
  · rw [serveFile_stale_some req fp st enc hstale hc]
    exact ⟨rfl, rfl, rfl⟩

/-- Claim C7, witness: with `Accept-Encoding: gzip` the 200 response
has `Content-Encoding: gzip` and no `Content-Length`. -/
theorem c7_witness :
    (handleRequest fs1 ⟨"/a.txt", none, none, some "gzip"⟩).status = 200 ∧
    headerVal (handleRequest fs1 ⟨"/a.txt", none, none, some "gzip"⟩) "Content-Length" = none ∧
    headerVal (handleRequest fs1 ⟨"/a.txt", none, none, some "gzip"⟩) "Content-Encoding" =
      some "gzip" := by
  have h := c7_length_xor_encoding fs1 ⟨"/a.txt", none, none, some "gzip"⟩
    "/srv/app/public/a.txt" "/srv/app/public/a.txt" st0 (by decide) (by decide) (by decide)
  refine ⟨h.1, ?_⟩
  have h2 := h.2
  rw [show selectCompression ((some "gzip" : Option String).getD "") = some "gzip" from by decide]
    at h2
  exact h2

/-- Claim C9: on any stat failure the pipeline responds with the 404
fallback — the custom `404.html` under the root as an HTML body when
readable, else a generic plain-text 404 — and the response is exactly
that terminal descriptor (the stat is not retried). -/
theorem c9_notfound_fallback (fs : Fs) (req : Request) (p : String)
    (hres : safeResolveFromPublic (if req.url = "" then "/" else req.url) = some p)
    (hstat : statWithIndex fs p = none) :
    handleRequest fs req = notFoundResponse fs ∧
    (∀ nf, readFileFs fs (pathJoin publicDir "404.html") = some nf →
      notFoundResponse fs =
        ⟨404, [("Content-Type", "text/html; charset=utf-8")], .text nf⟩) ∧
    (readFileFs fs (pathJoin publicDir "404.html") = none →
      notFoundResponse fs =
        ⟨404, [("Content-Type", "text/plain; charset=utf-8")], .text "404 Not Found"⟩) := by
  refine ⟨handleRequest_notFound fs req p hres hstat, ?_, ?_⟩
  · intro nf h
    unfold notFoundResponse
    rw [h]
  · intro h
    unfold notFoundResponse
    rw [h]

/-- Claim C9, witness: a missing page with a custom `404.html`
present is answered 404 with that page's content. -/
theorem c9_witness :
    handleRequest fs404 ⟨"/ghost.html", none, none, none⟩ = notFoundResponse fs404 ∧
    notFoundResponse fs404 =
      ⟨404, [("Content-Type", "text/html; charset=utf-8")], .text "<h1>lost</h1>"⟩ := by
  have h := c9_notfound_fallback fs404 ⟨"/ghost.html", none, none, none⟩
    "/srv/app/public/ghost.html" (by decide) (by decide)
  exact ⟨h.1, h.2.1 "<h1>lost</h1>" (by decide)⟩
